import Mathlib

/-!
# Verification of the camels race board and die (camels.py)

Shallow embedding of the camel-race simulation:

* `Stack` embeds `CamelStack.camels` (a Python list of camel names,
  bottom of the stack first, top last).
* `PosMap` embeds the Python dict `pos_to_stack` as an association list
  with unique keys (`NodupKeys` is the dict representation invariant);
  `dget`, `dset`, `ddel` are the dict read / write / delete operations.
  Key iteration order is never observed by the modelled operations, and
  lookups are by key, so the association list is a faithful model.
* `Index` embeds the Python dict `_camel_to_pos`; the code only ever
  reads, inserts and overwrites single keys of this dict, never iterates
  it, so a function `Camel → Option Pos` is a faithful model.
* Failures (Python `KeyError` on the index, `KeyError` on a missing
  position, `ValueError` from `list.index`) become `Except`/`Option`
  results.  The spec names the index-lookup failure `UnknownPieceError`,
  the stack-search failure `NotFoundError`.
* Randomness (`random.shuffle`, `random.randint`) is modelled by an
  oracle `Rng` carrying streams of shuffle outcomes and integer draws
  together with counters of how many draws were consumed; theorems that
  need the contracts of `shuffle` (produces a permutation) or
  `randint(1, 3)` (result lies in `[1, 3]`) take them as hypotheses.
-/

namespace Camels

abbrev Camel := String
abbrev Pos := Int

/-- `CamelStack.camels`: ordered bottom-to-top sequence of camels. -/
abbrev Stack := List Camel

/-- The Python dict `pos_to_stack`, as an association list. -/
abbrev PosMap := List (Pos × Stack)

/-- The Python dict `_camel_to_pos`. -/
abbrev Index := Camel → Option Pos

/-- Dict read `d[k]` / `d.get(k)`: value at the first entry with key `k`. -/
def dget : PosMap → Pos → Option Stack
  | [], _ => none
  | e :: rest, k => if e.1 = k then some e.2 else dget rest k

/-- Dict write `d[k] = v`: overwrite the first entry with key `k`,
or append a fresh entry when `k` is absent. -/
def dset : PosMap → Pos → Stack → PosMap
  | [], k, v => [(k, v)]
  | e :: rest, k, v => if e.1 = k then (k, v) :: rest else e :: dset rest k v

/-- Dict delete `del d[k]`: drop the first entry with key `k`. -/
def ddel : PosMap → Pos → PosMap
  | [], _ => []
  | e :: rest, k => if e.1 = k then rest else e :: ddel rest k

/-- The keys of the dict, in storage order. -/
def keys (d : PosMap) : List Pos := d.map Prod.fst

/-- Representation invariant of a Python dict: no key occurs twice. -/
def NodupKeys (d : PosMap) : Prop := (keys d).Nodup

/-- All camels stored on the board, in storage order. -/
def piecesOf (d : PosMap) : List Camel := (d.map Prod.snd).flatten

/-- Index write `idx[c] = p`. -/
def updIdx (idx : Index) (c : Camel) (p : Pos) : Index :=
  fun c' => if c' = c then some p else idx c'

/-- `CamelStack.detach(camel)`: split at the first occurrence of `camel`,
returning `(kept, moved)` where `kept = camels[:idx]` stays behind and
`moved = camels[idx:]` is carried away.  `none` embeds the `ValueError`
raised by `list.index` when `camel` is absent. -/
def stackDetach : Stack → Camel → Option (Stack × Stack)
  | [], _ => none
  | c :: rest, camel =>
      if c = camel then some ([], c :: rest)
      else
        match stackDetach rest camel with
        | none => none
        | some (kept, moved) => some (c :: kept, moved)

/-- `State.from_dict`: build a `pos_to_stack` dict from a literal mapping
position to list of camels (one fresh stack per entry, no filtering). -/
def from_dict (camel_dict : List (Pos × List Camel)) : PosMap :=
  camel_dict.map fun e => (e.1, e.2)

/-- Inner loop of `MoveableState._index_camel_stacks` over one stack:
`assert camel not in idx; idx[camel] = pos` for each camel in order.
`none` embeds the `AssertionError` (the spec's `DuplicatePieceError`). -/
def indexStack (pos : Pos) : List Camel → Index → Option Index
  | [], idx => some idx
  | c :: rest, idx =>
      match idx c with
      | none => indexStack pos rest (updIdx idx c pos)
      | some _ => none

/-- `MoveableState._index_camel_stacks`, iterating the dict entries. -/
def indexStacks : PosMap → Index → Option Index
  | [], idx => some idx
  | (pos, s) :: rest, idx =>
      match indexStack pos s idx with
      | none => none
      | some idx2 => indexStacks rest idx2

def index_camel_stacks (d : PosMap) : Option Index :=
  indexStacks d (fun _ => none)

/-- `MoveableState` after `consume`: the track and the derived index. -/
structure Board where
  track : PosMap
  index : Index

/-- `Board.__init__(init_state)`: deep-copy the supplied state (identity
in the value model) and build the index; `none` embeds the
`AssertionError` for duplicate pieces (the spec's `DuplicatePieceError`). -/
def mkBoard (d : PosMap) : Option Board :=
  (index_camel_stacks d).map fun idx => { track := d, index := idx }

/-- Errors of `Board.move_camel`, named as in the spec's taxonomy:
`UnknownPieceError` is the `KeyError` of the index lookup,
`KeyError` the lookup of a missing position in `pos_to_stack`,
`NotFoundError` the `ValueError` of `CamelStack.detach`. -/
inductive MoveErr where
  | UnknownPieceError
  | KeyError
  | NotFoundError
deriving DecidableEq, Repr

/-- `MoveableState._detach_camelstack(pos, camel)`: read the stack at
`pos`, detach the sub-stack starting at `camel` (mutating the stored
stack to the kept part), and delete the `pos` entry when the kept part
is empty. -/
def detach_camelstack (d : PosMap) (pos : Pos) (camel : Camel) :
    Except MoveErr (PosMap × Stack) :=
  match dget d pos with
  | none => .error .KeyError
  | some oldstack =>
      match stackDetach oldstack camel with
      | none => .error .NotFoundError
      | some (kept, moved) =>
          .ok (if kept = [] then ddel (dset d pos kept) pos
               else dset d pos kept, moved)

/-- `MoveableState._attach_camelstack(camelstack, newpos)`: `dict.get`
returns `None` only when the key is absent (a `CamelStack` object is
always truthy, having neither `__bool__` nor `__len__`), in which case a
fresh entry is created; otherwise the stored stack is extended. -/
def attach_camelstack (d : PosMap) (camelstack : Stack) (newpos : Pos) : PosMap :=
  match dget d newpos with
  | none => dset d newpos camelstack
  | some target_stack => dset d newpos (target_stack ++ camelstack)

/-- `MoveableState._update_index(moved_stack, newpos)`. -/
def update_index (idx : Index) (moved : Stack) (newpos : Pos) : Index :=
  moved.foldl (fun i c => updIdx i c newpos) idx

/-- `MoveableState.move_camel_from_to(camel, pos, newpos)`. -/
def move_camel_from_to (b : Board) (camel : Camel) (pos newpos : Pos) :
    Except MoveErr Board :=
  match detach_camelstack b.track pos camel with
  | .error e => .error e
  | .ok (d2, oldstack_moved) =>
      .ok { track := attach_camelstack d2 oldstack_moved newpos,
            index := update_index b.index oldstack_moved newpos }

/-- `Board.move_camel(camel, steps)`: look up the current position (the
spec's `UnknownPieceError` exit, before any mutation), compute the
destination, then move. -/
def move_camel (b : Board) (camel : Camel) (steps : Int) : Except MoveErr Board :=
  match b.index camel with
  | none => .error .UnknownPieceError
  | some curpos => move_camel_from_to b camel curpos (curpos + steps)

/-! ## The die (`CamelDie`) -/

/-- Oracle for `random`: `shuffles n` is the outcome of the `n`-th call
to `random.shuffle` (as a function of the list being shuffled), `ints n`
the outcome of the `n`-th call to `random.randint(1, 3)`; `sidx`/`iidx`
count the draws consumed so far. -/
structure Rng where
  shuffles : Nat → List Camel → List Camel
  ints : Nat → Int
  sidx : Nat
  iidx : Nat

/-- One `random.shuffle` draw. -/
def doShuffle (r : Rng) (l : List Camel) : List Camel × Rng :=
  (r.shuffles r.sidx l, { r with sidx := r.sidx + 1 })

/-- One `random.randint(1, 3)` draw (the `[1, 3]` range is a contract of
the oracle, assumed as a hypothesis where needed). -/
def randint (r : Rng) : Int × Rng :=
  (r.ints r.iidx, { r with iidx := r.iidx + 1 })

/-- `CamelDie`: the fixed camel universe and the current pool. -/
structure CamelDie where
  camels : List Camel
  state : List Camel

/-- `CamelDie._reset_state`: replace the pool with a shuffled copy of
the full universe. -/
def reset_state (d : CamelDie) (r : Rng) : CamelDie × Rng :=
  let (s, r1) := doShuffle r d.camels
  ({ d with state := s }, r1)

/-- Python `list.pop()`: remove and return the last element; `none`
embeds the `IndexError` on an empty list. -/
def listPop (l : List Camel) : Option (Camel × List Camel) :=
  match l.getLast? with
  | none => none
  | some c => some (c, l.dropLast)

/-- `CamelDie.roll_once`: pop the pool, reshuffling first when it is
empty; `none` embeds the uncaught `IndexError` when even the reshuffled
pool is empty (empty camel universe). -/
def roll_once (d : CamelDie) (r : Rng) :
    Option ((Camel × Int) × CamelDie × Rng) :=
  match listPop d.state with
  | some (camel, st) =>
      let (steps, r1) := randint r
      some ((camel, steps), { d with state := st }, r1)
  | none =>
      let (d1, r1) := reset_state d r
      match listPop d1.state with
      | none => none
      | some (camel, st) =>
          let (steps, r2) := randint r1
          some ((camel, steps), { d1 with state := st }, r2)

/-- The `while self.state:` loop of `CamelDie.roll_finish_round`:
pop the pool from the end, drawing one step count per camel popped. -/
def roll_loop (st : List Camel) (r : Rng) : List (Camel × Int) × Rng :=
  match h : st with
  | [] => ([], r)
  | _ :: _ =>
      let camel := st.getLast (by simp [h])
      let (steps, r1) := randint r
      let (rest, r2) := roll_loop st.dropLast r1
      ((camel, steps) :: rest, r2)
termination_by st.length
decreasing_by simp [h]

/-- `CamelDie.roll_finish_round`: drain the current pool, then reshuffle. -/
def roll_finish_round (d : CamelDie) (r : Rng) :
    List (Camel × Int) × CamelDie × Rng :=
  let (res, r1) := roll_loop d.state r
  let (d2, r2) := reset_state { d with state := [] } r1
  (res, d2, r2)

/-! ## Invariants -/

/-- Index consistency: `index[p] == pos` iff `p` is a member of
`track[pos]`. -/
def Consistent (b : Board) : Prop :=
  ∀ p pos, b.index p = some pos ↔ ∃ s, dget b.track pos = some s ∧ p ∈ s

/-- Combined data-model invariant: the track is a well-formed dict, no
camel occurs twice on the board, and the index is consistent. -/
def Inv (b : Board) : Prop :=
  NodupKeys b.track ∧ (piecesOf b.track).Nodup ∧ Consistent b

/-- Position of the first stored stack containing `c` (used only to
state what `_index_camel_stacks` builds). -/
def findPos : PosMap → Camel → Option Pos
  | [], _ => none
  | (pos, s) :: rest, c => if c ∈ s then some pos else findPos rest c

/-- A concrete admissible random source: every shuffle draw returns its
input unchanged (the identity permutation) and every integer draw
returns 1; used to instantiate theorems on concrete dice. -/
def idRng : Rng :=
  { shuffles := fun _ l => l, ints := fun _ => 1, sidx := 0, iidx := 0 }

/-- Board states reachable from construction by successful moves. -/
inductive Reachable : Board → Prop
  | init (d : PosMap) (b : Board) (hk : NodupKeys d) (hmk : mkBoard d = some b) :
      Reachable b
  | step (b b' : Board) (c : Camel) (s : Int) (hr : Reachable b)
      (hm : move_camel b c s = .ok b') : Reachable b'

/-- Board states reachable from construction out of an initial state
with no empty stacks. -/
inductive ReachableNE : Board → Prop
  | init (d : PosMap) (b : Board) (hk : NodupKeys d)
      (hne : ∀ e ∈ d, e.2 ≠ []) (hmk : mkBoard d = some b) : ReachableNE b
  | step (b b' : Board) (c : Camel) (s : Int) (hr : ReachableNE b)
      (hm : move_camel b c s = .ok b') : ReachableNE b'

/-! ## Dictionary lemmas -/

theorem keys_cons (e : Pos × Stack) (d : PosMap) : keys (e :: d) = e.1 :: keys d := rfl

theorem nodupKeys_cons {e : Pos × Stack} {d : PosMap} :
    NodupKeys (e :: d) ↔ e.1 ∉ keys d ∧ NodupKeys d := by
  simp [NodupKeys, keys_cons]

theorem dget_eq_none {d : PosMap} {q : Pos} : dget d q = none ↔ q ∉ keys d := by
  induction d with
  | nil => simp [dget, keys]
  | cons e rest ih =>
      by_cases h : e.1 = q
      · subst h; simp [dget, keys_cons]
      · have hq : ¬q = e.1 := fun hh => h hh.symm
        simp [dget, keys_cons, h, ih, hq]

theorem dget_dset (d : PosMap) (k : Pos) (v : Stack) (q : Pos) :
    dget (dset d k v) q = if q = k then some v else dget d q := by
  induction d with
  | nil =>
      by_cases h : q = k
      · subst h; simp [dset, dget]
      · simp [dset, dget, h, Ne.symm h]
  | cons e rest ih =>
      by_cases hk : e.1 = k
      · simp only [dset, if_pos hk]
        by_cases hq : q = k
        · subst hq; simp [dget]
        · simp [dget, hq, Ne.symm hq, hk]
      · simp only [dset, if_neg hk]
        by_cases hq : e.1 = q
        · have hqk : q ≠ k := by rw [← hq]; exact hk
          simp [dget, hq, hqk]
        · simp [dget, hq, ih]

theorem dget_ddel_ne (d : PosMap) (k q : Pos) (h : q ≠ k) :
    dget (ddel d k) q = dget d q := by
  induction d with
  | nil => simp [ddel]
  | cons e rest ih =>
      by_cases hk : e.1 = k
      · have hne : e.1 ≠ q := by rw [hk]; exact Ne.symm h
        simp [ddel, hk, dget, hne, Ne.symm h]
      · simp [ddel, hk, dget, ih]

theorem mem_keys_of_mem {d : PosMap} {q : Pos} {s : Stack} (h : (q, s) ∈ d) :
    q ∈ keys d :=
  List.mem_map.mpr ⟨(q, s), h, rfl⟩

theorem dget_ddel_self (d : PosMap) (k : Pos) (hd : NodupKeys d) :
    dget (ddel d k) k = none := by
  induction d with
  | nil => simp [ddel, dget]
  | cons e rest ih =>
      obtain ⟨hhead, htail⟩ := nodupKeys_cons.mp hd
      by_cases hk : e.1 = k
      · simp only [ddel, if_pos hk]
        exact dget_eq_none.mpr (hk ▸ hhead)
      · simp [ddel, hk, dget, ih htail]

theorem keys_dset_mem {d : PosMap} {k : Pos} (v : Stack) (h : k ∈ keys d) :
    keys (dset d k v) = keys d := by
  induction d with
  | nil => simp [keys] at h
  | cons e rest ih =>
      by_cases hk : e.1 = k
      · simp [dset, hk, keys_cons]
      · have : k ∈ keys rest := by
          rcases (by simpa [keys_cons] using h : k = e.1 ∨ k ∈ keys rest) with h1 | h1
          · exact absurd h1.symm hk
          · exact h1
        simp [dset, hk, keys_cons, ih this]

theorem dset_of_not_mem {d : PosMap} {k : Pos} (v : Stack) (h : k ∉ keys d) :
    dset d k v = d ++ [(k, v)] := by
  induction d with
  | nil => simp [dset]
  | cons e rest ih =>
      have hk : e.1 ≠ k := fun hh => h (by simp [keys_cons, hh])
      have : k ∉ keys rest := fun hh => h (by simp [keys_cons, hh])
      simp [dset, hk, ih this]

theorem nodupKeys_dset {d : PosMap} (k : Pos) (v : Stack) (hd : NodupKeys d) :
    NodupKeys (dset d k v) := by
  by_cases h : k ∈ keys d
  · rw [NodupKeys, keys_dset_mem v h]; exact hd
  · rw [dset_of_not_mem v h]
    have hkeys : keys (d ++ [(k, v)]) = keys d ++ [k] := by simp [keys]
    rw [NodupKeys, hkeys, List.nodup_append]
    refine ⟨hd, List.nodup_singleton k, ?_⟩
    intro a ha hak
    rw [List.mem_singleton] at hak
    subst hak
    exact h ha

theorem ddel_sublist (d : PosMap) (k : Pos) : (ddel d k).Sublist d := by
  induction d with
  | nil => simp [ddel]
  | cons e rest ih =>
      by_cases hk : e.1 = k
      · simp only [ddel, if_pos hk]
        exact List.sublist_cons_self e rest
      · simpa [ddel, hk] using List.Sublist.cons₂ e ih

theorem nodupKeys_ddel {d : PosMap} (k : Pos) (hd : NodupKeys d) :
    NodupKeys (ddel d k) :=
  ((ddel_sublist d k).map Prod.fst).nodup hd

theorem ddel_dset (d : PosMap) (k : Pos) (v : Stack) :
    ddel (dset d k v) k = ddel d k := by
  induction d with
  | nil => simp [dset, ddel]
  | cons e rest ih =>
      by_cases hk : e.1 = k
      · simp [dset, ddel, hk]
      · simp [dset, ddel, hk, ih]

theorem ddel_of_not_mem {d : PosMap} {k : Pos} (h : k ∉ keys d) : ddel d k = d := by
  induction d with
  | nil => simp [ddel]
  | cons e rest ih =>
      have hk : e.1 ≠ k := fun hh => h (by simp [keys_cons, hh])
      have : k ∉ keys rest := fun hh => h (by simp [keys_cons, hh])
      simp [ddel, hk, ih this]

/-! ## Lemmas about the stored camels -/

theorem piecesOf_cons (e : Pos × Stack) (d : PosMap) :
    piecesOf (e :: d) = e.2 ++ piecesOf d := rfl

theorem piecesOf_append (d1 d2 : PosMap) :
    piecesOf (d1 ++ d2) = piecesOf d1 ++ piecesOf d2 := by
  simp [piecesOf]

theorem mem_piecesOf {d : PosMap} {q : Pos} {s : Stack} {c : Camel}
    (hm : (q, s) ∈ d) (hc : c ∈ s) : c ∈ piecesOf d := by
  induction d with
  | nil => simp at hm
  | cons e rest ih =>
      rcases List.mem_cons.mp hm with h1 | h1
      · rw [piecesOf_cons, ← h1]
        exact List.mem_append.mpr (Or.inl hc)
      · rw [piecesOf_cons]
        exact List.mem_append.mpr (Or.inr (ih h1))

theorem pieces_perm_del {d : PosMap} {k : Pos} {s : Stack}
    (h : dget d k = some s) :
    (piecesOf d).Perm (s ++ piecesOf (ddel d k)) := by
  induction d with
  | nil => simp [dget] at h
  | cons e rest ih =>
      by_cases hk : e.1 = k
      · have hs : e.2 = s := by simpa [dget, hk] using h
        subst hs
        simp [ddel, hk, piecesOf_cons]
      · have h' : dget rest k = some s := by simpa [dget, hk] using h
        have hperm := ih h'
        simp only [ddel, if_neg hk, piecesOf_cons]
        refine List.Perm.trans (hperm.append_left e.2) ?_
        rw [← List.append_assoc, ← List.append_assoc]
        exact List.perm_append_comm.append_right _

theorem pieces_perm_set (d : PosMap) (k : Pos) (v : Stack) :
    (piecesOf (dset d k v)).Perm (v ++ piecesOf (ddel d k)) := by
  have h1 : dget (dset d k v) k = some v := by simp [dget_dset]
  have h2 := pieces_perm_del h1
  rwa [ddel_dset] at h2

/-! ## Stack detach lemmas -/

theorem stackDetach_eq {s : Stack} {c : Camel} {kept moved : Stack}
    (h : stackDetach s c = some (kept, moved)) :
    s = kept ++ moved ∧ c ∉ kept ∧ moved.head? = some c := by
  induction s generalizing kept moved with
  | nil => simp [stackDetach] at h
  | cons a rest ih =>
      rw [stackDetach] at h
      by_cases hc : a = c
      · rw [if_pos hc] at h
        injection h with h
        rw [Prod.mk.injEq] at h
        obtain ⟨h1, h2⟩ := h
        subst h1; subst h2
        simp [hc]
      · rw [if_neg hc] at h
        cases hr : stackDetach rest c with
        | none => rw [hr] at h; cases h
        | some km =>
            obtain ⟨k0, m0⟩ := km
            rw [hr] at h
            injection h with h
            rw [Prod.mk.injEq] at h
            obtain ⟨h1, h2⟩ := h
            subst h1; subst h2
            obtain ⟨e1, e2, e3⟩ := ih hr
            exact ⟨by rw [e1]; simp, by simp [Ne.symm hc, e2], e3⟩

theorem stackDetach_total {s : Stack} {c : Camel} (h : c ∈ s) :
    ∃ kept moved, stackDetach s c = some (kept, moved) := by
  induction s with
  | nil => simp at h
  | cons a rest ih =>
      by_cases hc : a = c
      · exact ⟨[], a :: rest, by rw [stackDetach, if_pos hc]⟩
      · have hcr : c ∈ rest := by
          rcases List.mem_cons.mp h with h1 | h1
          · exact absurd h1.symm hc
          · exact h1
        obtain ⟨k0, m0, hr⟩ := ih hcr
        exact ⟨a :: k0, m0, by rw [stackDetach, if_neg hc, hr]⟩

/-! ## Index update lemmas -/

theorem update_index_eq (idx : Index) (moved : Stack) (np : Pos) (c : Camel) :
    update_index idx moved np c = if c ∈ moved then some np else idx c := by
  induction moved generalizing idx with
  | nil => simp [update_index]
  | cons m rest ih =>
      have hstep : update_index idx (m :: rest) np
          = update_index (updIdx idx m np) rest np := rfl
      rw [hstep, ih]
      by_cases hc : c ∈ rest
      · simp [hc]
      · by_cases hm : c = m
        · subst hm; simp [hc, updIdx]
        · simp [hc, hm, updIdx]

/-! ## Entry membership and lookup -/

theorem dget_mem {d : PosMap} {q : Pos} {s : Stack} (h : dget d q = some s) :
    (q, s) ∈ d := by
  induction d with
  | nil => simp [dget] at h
  | cons e rest ih =>
      by_cases hq : e.1 = q
      · have hs : e.2 = s := by simpa [dget, hq] using h
        have : e = (q, s) := by
          rw [← hq, ← hs]
        rw [← this]
        exact List.mem_cons_self e rest
      · exact List.mem_cons_of_mem e (ih (by simpa [dget, hq] using h))

theorem mem_dget {d : PosMap} {q : Pos} {s : Stack} (hk : NodupKeys d)
    (h : (q, s) ∈ d) : dget d q = some s := by
  induction d with
  | nil => simp at h
  | cons e rest ih =>
      obtain ⟨hhead, htail⟩ := nodupKeys_cons.mp hk
      rcases List.mem_cons.mp h with h1 | h1
      · rw [← h1]
        simp [dget]
      · have hne : e.1 ≠ q := by
          intro hh
          exact hhead (hh ▸ mem_keys_of_mem h1)
        simp [dget, hne, ih htail h1]

theorem findPos_mem {d : PosMap} {c : Camel} {q : Pos}
    (h : findPos d c = some q) : ∃ s, (q, s) ∈ d ∧ c ∈ s := by
  induction d with
  | nil => simp [findPos] at h
  | cons e rest ih =>
      obtain ⟨pos, s⟩ := e
      by_cases hc : c ∈ s
      · have hq : pos = q := by simpa [findPos, hc] using h
        exact ⟨s, by rw [hq]; exact List.mem_cons_self _ _, hc⟩
      · obtain ⟨s', hm, hc'⟩ := ih (by simpa [findPos, hc] using h)
        exact ⟨s', List.mem_cons_of_mem _ hm, hc'⟩

theorem findPos_eq_of_mem {d : PosMap} {c : Camel} {q : Pos} {s : Stack}
    (hnd : (piecesOf d).Nodup) (hm : (q, s) ∈ d) (hc : c ∈ s) :
    findPos d c = some q := by
  induction d with
  | nil => simp at hm
  | cons e rest ih =>
      obtain ⟨p1, s1⟩ := e
      rw [piecesOf_cons] at hnd
      obtain ⟨hnd1, hndr, hdisj⟩ := List.nodup_append.mp hnd
      by_cases hcs : c ∈ s1
      · rw [findPos, if_pos hcs]
        rcases List.mem_cons.mp hm with h1 | h1
        · rw [Prod.mk.injEq] at h1
          rw [h1.1]
        · exact absurd (mem_piecesOf h1 hc) (hdisj hcs)
      · rw [findPos, if_neg hcs]
        rcases List.mem_cons.mp hm with h1 | h1
        · rw [Prod.mk.injEq] at h1
          exact absurd (h1.2 ▸ hc) hcs
        · exact ih hndr h1

/-! ## Building the index (`_index_camel_stacks`) -/

theorem indexStack_some {pos : Pos} {camels : List Camel} {idx idx' : Index}
    (h : indexStack pos camels idx = some idx') :
    camels.Nodup ∧ (∀ c ∈ camels, idx c = none) ∧
      ∀ c, idx' c = if c ∈ camels then some pos else idx c := by
  induction camels generalizing idx with
  | nil =>
      rw [indexStack] at h
      injection h with h
      subst h
      simp
  | cons a rest ih =>
      rw [indexStack] at h
      cases ha : idx a with
      | some p => rw [ha] at h; cases h
      | none =>
          rw [ha] at h
          obtain ⟨hnd, hfresh, hchar⟩ := ih h
          have hanotin : a ∉ rest := by
            intro hmem
            have := hfresh a hmem
            simp [updIdx] at this
          refine ⟨List.nodup_cons.mpr ⟨hanotin, hnd⟩, ?_, ?_⟩
          · intro c hc
            rcases List.mem_cons.mp hc with rfl | hc'
            · exact ha
            · have hf := hfresh c hc'
              by_cases hca : c = a
              · subst hca; exact ha
              · simpa [updIdx, hca] using hf
          · intro c
            rw [hchar c]
            by_cases hc : c ∈ rest
            · simp [hc]
            · by_cases hca : c = a
              · subst hca; simp [hc, updIdx]
              · simp [hc, hca, updIdx]

theorem indexStack_total (pos : Pos) {camels : List Camel} (idx : Index)
    (hnd : camels.Nodup) (hfresh : ∀ c ∈ camels, idx c = none) :
    ∃ idx', indexStack pos camels idx = some idx' := by
  induction camels generalizing idx with
  | nil => exact ⟨idx, rfl⟩
  | cons a rest ih =>
      rw [indexStack, hfresh a (List.mem_cons_self a rest)]
      obtain ⟨ha, hrest⟩ := List.nodup_cons.mp hnd
      refine ih _ hrest ?_
      intro c hc
      have hca : c ≠ a := by
        rintro rfl
        exact ha hc
      simp [updIdx, hca, hfresh c (List.mem_cons_of_mem a hc)]

theorem indexStacks_some {d : PosMap} {idx idx' : Index}
    (h : indexStacks d idx = some idx') :
    (piecesOf d).Nodup ∧ (∀ c ∈ piecesOf d, idx c = none) ∧
      ∀ c, idx' c = match findPos d c with
        | some q => some q
        | none => idx c := by
  induction d generalizing idx with
  | nil =>
      rw [indexStacks] at h
      injection h with h
      subst h
      simp [piecesOf, findPos]
  | cons e rest ih =>
      obtain ⟨pos, s⟩ := e
      rw [indexStacks] at h
      cases hs : indexStack pos s idx with
      | none => rw [hs] at h; cases h
      | some idx2 =>
          rw [hs] at h
          obtain ⟨hndr, hfreshr, hcharr⟩ := ih h
          obtain ⟨hnds, hfreshs, hchars⟩ := indexStack_some hs
          have hdisj : ∀ c ∈ s, c ∉ piecesOf rest := by
            intro c hcs hcr
            have h1 := hfreshr c hcr
            have h2 := hchars c
            rw [h1, if_pos hcs] at h2
            cases h2
          refine ⟨?_, ?_, ?_⟩
          · rw [piecesOf_cons]
            exact List.nodup_append.mpr ⟨hnds, hndr, fun c hc => hdisj c hc⟩
          · intro c hc
            rcases List.mem_append.mp (by simpa [piecesOf_cons] using hc) with h1 | h1
            · exact hfreshs c h1
            · have h2 := hfreshr c h1
              have h3 := hchars c
              rw [h2] at h3
              by_cases hcs : c ∈ s
              · rw [if_pos hcs] at h3; cases h3
              · rw [if_neg hcs] at h3; exact h3.symm
          · intro c
            rw [hcharr c, findPos]
            by_cases hcs : c ∈ s
            · rw [if_pos hcs]
              have hnone : findPos rest c = none := by
                cases hf : findPos rest c with
                | none => rfl
                | some q =>
                    obtain ⟨s', hm', hc'⟩ := findPos_mem hf
                    exact absurd (mem_piecesOf hm' hc') (hdisj c hcs)
              rw [hnone, hchars c, if_pos hcs]
            · rw [if_neg hcs]
              cases hf : findPos rest c with
              | none => rw [hchars c, if_neg hcs]
              | some q => rfl

theorem indexStacks_total {d : PosMap} (idx : Index)
    (hnd : (piecesOf d).Nodup) (hfresh : ∀ c ∈ piecesOf d, idx c = none) :
    ∃ idx', indexStacks d idx = some idx' := by
  induction d generalizing idx with
  | nil => exact ⟨idx, rfl⟩
  | cons e rest ih =>
      obtain ⟨pos, s⟩ := e
      rw [piecesOf_cons] at hnd hfresh
      obtain ⟨hnds, hndr, hdisj⟩ := List.nodup_append.mp hnd
      obtain ⟨idx2, h2⟩ := indexStack_total pos idx hnds
        (fun c hc => hfresh c (List.mem_append.mpr (Or.inl hc)))
      rw [indexStacks, h2]
      obtain ⟨_, _, hchar2⟩ := indexStack_some h2
      refine ih _ hndr ?_
      intro c hc
      have hcs : c ∉ s := fun hmem => hdisj hmem hc
      rw [hchar2 c, if_neg hcs]
      exact hfresh c (List.mem_append.mpr (Or.inr hc))

/-! ## Board construction -/

theorem mkBoard_char {d : PosMap} {b : Board} (h : mkBoard d = some b) :
    b.track = d ∧ (piecesOf d).Nodup ∧
      ∀ c, b.index c = match findPos d c with
        | some q => some q
        | none => none := by
  rw [mkBoard] at h
  cases hx : index_camel_stacks d with
  | none => rw [hx] at h; cases h
  | some idx =>
      rw [hx] at h
      injection h with h
      subst h
      obtain ⟨hnd, _, hchar⟩ := indexStacks_some hx
      exact ⟨rfl, hnd, hchar⟩

theorem mkBoard_inv {d : PosMap} {b : Board} (hk : NodupKeys d)
    (h : mkBoard d = some b) : Inv b ∧ b.track = d := by
  obtain ⟨htrack, hnd, hchar⟩ := mkBoard_char h
  refine ⟨⟨htrack ▸ hk, htrack ▸ hnd, ?_⟩, htrack⟩
  intro c q
  rw [htrack, hchar c]
  constructor
  · intro hq
    cases hf : findPos d c with
    | none => rw [hf] at hq; cases hq
    | some q' =>
        rw [hf] at hq
        injection hq with hq
        subst hq
        obtain ⟨s, hm, hc⟩ := findPos_mem hf
        exact ⟨s, mem_dget hk hm, hc⟩
  · rintro ⟨s, hget, hc⟩
    rw [findPos_eq_of_mem hnd (dget_mem hget) hc]

theorem mkBoard_total {d : PosMap} (hnd : (piecesOf d).Nodup) :
    ∃ b, mkBoard d = some b := by
  obtain ⟨idx, hidx⟩ := indexStacks_total (fun _ => none) hnd (fun _ _ => rfl)
  exact ⟨{ track := d, index := idx }, by rw [mkBoard, index_camel_stacks, hidx]; rfl⟩

/-! ## Attach lemmas -/

theorem attach_dget (d : PosMap) (v : Stack) (np q : Pos) :
    dget (attach_camelstack d v np) q =
      if q = np then some ((dget d np).getD [] ++ v) else dget d q := by
  rw [attach_camelstack]
  cases h : dget d np with
  | none => simp [dget_dset, h]
  | some t => simp [dget_dset, h]

theorem attach_nodup {d : PosMap} (v : Stack) (np : Pos) (hd : NodupKeys d) :
    NodupKeys (attach_camelstack d v np) := by
  rw [attach_camelstack]
  cases h : dget d np with
  | none => exact nodupKeys_dset np v hd
  | some t => exact nodupKeys_dset np (t ++ v) hd

theorem attach_pieces (d : PosMap) (v : Stack) (np : Pos) :
    (piecesOf (attach_camelstack d v np)).Perm (v ++ piecesOf d) := by
  rw [attach_camelstack]
  cases h : dget d np with
  | none =>
      rw [dset_of_not_mem v (dget_eq_none.mp h), piecesOf_append]
      have hone : piecesOf [(np, v)] = v := by simp [piecesOf]
      rw [hone]
      exact List.perm_append_comm
  | some t =>
      refine (pieces_perm_set d np (t ++ v)).trans ?_
      have h2 := pieces_perm_del h
      refine List.Perm.trans ?_ (h2.append_left v).symm
      rw [← List.append_assoc]
      exact List.perm_append_comm.append_right _

/-! ## Unfolding a successful move -/

theorem move_cases {b b' : Board} {camel : Camel} {steps : Int}
    (h : move_camel b camel steps = .ok b') :
    ∃ cur stk kept moved,
      b.index camel = some cur ∧
      dget b.track cur = some stk ∧
      stackDetach stk camel = some (kept, moved) ∧
      b'.track = attach_camelstack
        (if kept = [] then ddel (dset b.track cur kept) cur
         else dset b.track cur kept) moved (cur + steps) ∧
      b'.index = update_index b.index moved (cur + steps) := by
  rw [move_camel] at h
  split at h
  · cases h
  · rename_i cur hcur
    unfold move_camel_from_to at h
    split at h
    · cases h
    · rename_i d2 moved hdet
      injection h with h
      subst h
      unfold detach_camelstack at hdet
      split at hdet
      · cases hdet
      · rename_i stk hstk
        split at hdet
        · cases hdet
        · rename_i kept moved0 hsd
          injection hdet with hdet
          rw [Prod.mk.injEq] at hdet
          obtain ⟨hd2, hmv⟩ := hdet
          subst hd2
          subst hmv
          exact ⟨cur, stk, kept, moved0, hcur, hstk, hsd, rfl, rfl⟩

/-- Workhorse characterization of a successful `move_camel` from an
invariant-satisfying board: the stack at the source splits as
`kept ++ moved` with `moved` the suffix headed by the moved camel, and
the resulting track, index, key-wellformedness and camel multiset are
fully described. -/
theorem move_spec {b b' : Board} {camel : Camel} {steps : Int}
    (hInv : Inv b) (h : move_camel b camel steps = .ok b') :
    ∃ cur kept moved,
      b.index camel = some cur ∧
      dget b.track cur = some (kept ++ moved) ∧
      camel ∉ kept ∧ moved.head? = some camel ∧
      (∀ q, dget b'.track q =
        if q = cur + steps then
          some ((if cur + steps = cur then
                  (if kept = [] then (none : Option Stack) else some kept)
                else dget b.track (cur + steps)).getD [] ++ moved)
        else if q = cur then (if kept = [] then none else some kept)
        else dget b.track q) ∧
      (∀ c, b'.index c = if c ∈ moved then some (cur + steps) else b.index c) ∧
      NodupKeys b'.track ∧
      (piecesOf b'.track).Perm (piecesOf b.track) := by
  obtain ⟨cur, stk, kept, moved, hcur, hstk, hsd, htr, hidx⟩ := move_cases h
  obtain ⟨hsplit, hnk, hhd⟩ := stackDetach_eq hsd
  subst hsplit
  set d2 := (if kept = [] then ddel (dset b.track cur kept) cur
    else dset b.track cur kept) with hd2def
  have hd2get : ∀ q, dget d2 q =
      if q = cur then (if kept = [] then none else some kept)
      else dget b.track q := by
    intro q
    rw [hd2def]
    by_cases hk : kept = []
    · rw [if_pos hk, ddel_dset]
      by_cases hq : q = cur
      · subst hq; rw [if_pos rfl, if_pos hk, dget_ddel_self _ _ hInv.1]
      · rw [dget_ddel_ne _ _ _ hq, if_neg hq]
    · rw [if_neg hk, dget_dset]
      by_cases hq : q = cur
      · subst hq; rw [if_pos rfl, if_pos rfl, if_neg hk]
      · rw [if_neg hq, if_neg hq]
  have hd2nodup : NodupKeys d2 := by
    rw [hd2def]
    by_cases hk : kept = []
    · rw [if_pos hk]
      exact nodupKeys_ddel cur (nodupKeys_dset cur kept hInv.1)
    · rw [if_neg hk]
      exact nodupKeys_dset cur kept hInv.1
  have hd2pieces : (piecesOf d2).Perm (kept ++ piecesOf (ddel b.track cur)) := by
    rw [hd2def]
    by_cases hk : kept = []
    · rw [if_pos hk, ddel_dset, hk, List.nil_append]
    · rw [if_neg hk]
      exact pieces_perm_set b.track cur kept
  refine ⟨cur, kept, moved, hcur, hstk, hnk, hhd, ?_, ?_, ?_, ?_⟩
  · intro q
    rw [htr, attach_dget, hd2get q, hd2get (cur + steps)]
  · intro c
    rw [hidx]
    exact update_index_eq b.index moved (cur + steps) c
  · rw [htr]
    exact attach_nodup moved (cur + steps) hd2nodup
  · rw [htr]
    refine (attach_pieces d2 moved (cur + steps)).trans ?_
    refine (hd2pieces.append_left moved).trans ?_
    refine List.Perm.trans ?_ (pieces_perm_del hstk).symm
    rw [← List.append_assoc]
    exact List.perm_append_comm.append_right _

/-! ## Totality and error behaviour of `move_camel` -/

theorem move_total {b : Board} {camel : Camel} {cur : Pos} (hInv : Inv b)
    (hcur : b.index camel = some cur) (steps : Int) :
    ∃ b', move_camel b camel steps = .ok b' := by
  obtain ⟨s, hgs, hcs⟩ := (hInv.2.2 camel cur).mp hcur
  obtain ⟨kept, moved, hsd⟩ := stackDetach_total hcs
  refine ⟨Board.mk (attach_camelstack (if kept = [] then
      ddel (dset b.track cur kept) cur else dset b.track cur kept)
      moved (cur + steps)) (update_index b.index moved (cur + steps)), ?_⟩
  simp only [move_camel, hcur, move_camel_from_to, detach_camelstack, hgs, hsd]

theorem move_error_char {b : Board} (camel : Camel) (steps : Int) (hInv : Inv b) :
    (move_camel b camel steps = .error MoveErr.UnknownPieceError
      ↔ b.index camel = none)
    ∧ ∀ e, move_camel b camel steps = .error e → e = MoveErr.UnknownPieceError := by
  cases hcur : b.index camel with
  | none =>
      have hrun : move_camel b camel steps = .error MoveErr.UnknownPieceError := by
        rw [move_camel, hcur]
      refine ⟨⟨fun _ => rfl, fun _ => hrun⟩, ?_⟩
      intro e he
      rw [hrun] at he
      injection he with he
      exact he.symm
  | some cur =>
      obtain ⟨b', hok⟩ := move_total hInv hcur steps
      rw [hok]
      constructor
      · constructor
        · intro h
          cases h
        · intro h
          cases h
      · intro e he
        cases he

/-! ## Preservation of the invariant -/

theorem move_inv {b b' : Board} {camel : Camel} {steps : Int}
    (hInv : Inv b) (h : move_camel b camel steps = .ok b') : Inv b' := by
  obtain ⟨cur, kept, moved, hcur, hstk, hnk, hhd, htr, hidx, hnodup, hperm⟩ :=
    move_spec hInv h
  refine ⟨hnodup, hperm.symm.nodup hInv.2.1, ?_⟩
  have hstknodup : (kept ++ moved).Nodup :=
    (List.nodup_append.mp ((pieces_perm_del hstk).nodup hInv.2.1)).1
  have hdisj : ∀ c, c ∈ kept → c ∈ moved → False := by
    intro c h1 h2
    exact (List.nodup_append.mp hstknodup).2.2 h1 h2
  have hidxStk : ∀ c ∈ kept ++ moved, b.index c = some cur := fun c hcm =>
    (hInv.2.2 c cur).mpr ⟨kept ++ moved, hstk, hcm⟩
  intro c q
  rw [hidx c]
  by_cases hc : c ∈ moved
  · rw [if_pos hc]
    constructor
    · intro hq
      injection hq with hq
      subst hq
      refine ⟨_, by rw [htr (cur + steps), if_pos rfl], ?_⟩
      exact List.mem_append.mpr (Or.inr hc)
    · rintro ⟨s', hget, hcs⟩
      suffices hqe : q = cur + steps by rw [hqe]
      by_contra hqne
      rw [htr q, if_neg hqne] at hget
      by_cases hqc : q = cur
      · rw [if_pos hqc] at hget
        by_cases hk : kept = []
        · rw [if_pos hk] at hget; cases hget
        · rw [if_neg hk] at hget
          injection hget with hget
          subst hget
          exact hdisj c hcs hc
      · rw [if_neg hqc] at hget
        have hq2 := (hInv.2.2 c q).mpr ⟨s', hget, hcs⟩
        rw [hidxStk c (List.mem_append.mpr (Or.inr hc))] at hq2
        injection hq2 with hq2
        exact hqc hq2.symm
  · rw [if_neg hc]
    constructor
    · intro hq
      obtain ⟨s, hgs, hcs⟩ := (hInv.2.2 c q).mp hq
      by_cases hq1 : q = cur + steps
      · subst hq1
        refine ⟨_, by rw [htr (cur + steps), if_pos rfl], ?_⟩
        refine List.mem_append.mpr (Or.inl ?_)
        by_cases hq2 : cur + steps = cur
        · rw [if_pos hq2]
          rw [hq2] at hgs
          have hs : kept ++ moved = s := by
            have h12 := hstk.symm.trans hgs
            injection h12
          have hck : c ∈ kept := by
            rcases List.mem_append.mp (hs ▸ hcs) with h1 | h1
            · exact h1
            · exact absurd h1 hc
          have hkne : kept ≠ [] := by
            rintro rfl
            simp at hck
          rw [if_neg hkne]
          exact hck
        · rw [if_neg hq2, hgs]
          exact hcs
      · by_cases hq2 : q = cur
        · rw [hq2] at hgs
          have hs : kept ++ moved = s := by
            have h12 := hstk.symm.trans hgs
            injection h12
          have hck : c ∈ kept := by
            rcases List.mem_append.mp (hs ▸ hcs) with h1 | h1
            · exact h1
            · exact absurd h1 hc
          have hkne : kept ≠ [] := by
            rintro rfl
            simp at hck
          refine ⟨kept, ?_, hck⟩
          rw [htr q, if_neg hq1, if_pos hq2, if_neg hkne]
        · refine ⟨s, ?_, hcs⟩
          rw [htr q, if_neg hq1, if_neg hq2]
          exact hgs
    · rintro ⟨s', hget, hcs⟩
      rw [htr q] at hget
      by_cases hq1 : q = cur + steps
      · rw [if_pos hq1] at hget
        injection hget with hget
        subst hget
        have hcx : c ∈ (if cur + steps = cur then
            (if kept = [] then (none : Option Stack) else some kept)
          else dget b.track (cur + steps)).getD [] := by
          rcases List.mem_append.mp hcs with h1 | h1
          · exact h1
          · exact absurd h1 hc
        by_cases hq2 : cur + steps = cur
        · rw [if_pos hq2] at hcx
          by_cases hk : kept = []
          · rw [if_pos hk] at hcx
            simp at hcx
          · rw [if_neg hk] at hcx
            rw [hq1, hq2]
            exact hidxStk c (List.mem_append.mpr (Or.inl hcx))
        · rw [if_neg hq2] at hcx
          cases hgx : dget b.track (cur + steps) with
          | none => rw [hgx] at hcx; simp at hcx
          | some t =>
              rw [hgx] at hcx
              rw [hq1]
              exact (hInv.2.2 c (cur + steps)).mpr ⟨t, hgx, hcx⟩
      · rw [if_neg hq1] at hget
        by_cases hq2 : q = cur
        · rw [if_pos hq2] at hget
          by_cases hk : kept = []
          · rw [if_pos hk] at hget; cases hget
          · rw [if_neg hk] at hget
            injection hget with hget
            subst hget
            rw [hq2]
            exact hidxStk c (List.mem_append.mpr (Or.inl hcs))
        · rw [if_neg hq2] at hget
          exact (hInv.2.2 c q).mpr ⟨s', hget, hcs⟩

/-! ## Reachability -/

theorem reachable_inv {b : Board} (h : Reachable b) : Inv b := by
  induction h with
  | init d b hk hmk => exact (mkBoard_inv hk hmk).1
  | step b b2 c s hr hm ih => exact move_inv ih hm

theorem reachableNE_inv {b : Board} (h : ReachableNE b) :
    Inv b ∧ ∀ q s, dget b.track q = some s → s ≠ [] := by
  induction h with
  | init d b hk hne hmk =>
      obtain ⟨hInv, htrack⟩ := mkBoard_inv hk hmk
      refine ⟨hInv, ?_⟩
      intro q s hget
      exact hne (q, s) (dget_mem (htrack ▸ hget))
  | step b b2 c stp hr hm ih =>
      obtain ⟨hInv, hne⟩ := ih
      refine ⟨move_inv hInv hm, ?_⟩
      intro q st hget
      obtain ⟨cur, kept, moved, hcur, hstk, hnk, hhd, htr, hidx, hnodup, hperm⟩ :=
        move_spec hInv hm
      have hmne : moved ≠ [] := by
        rintro rfl
        cases hhd
      rw [htr q] at hget
      by_cases hq1 : q = cur + stp
      · rw [if_pos hq1] at hget
        injection hget with hget
        intro h0
        rw [← hget] at h0
        exact hmne (List.append_eq_nil.mp h0).2
      · rw [if_neg hq1] at hget
        by_cases hq2 : q = cur
        · rw [if_pos hq2] at hget
          by_cases hk : kept = []
          · rw [if_pos hk] at hget; cases hget
          · rw [if_neg hk] at hget
            injection hget with hget
            intro h0
            exact hk (hget.trans h0)
        · rw [if_neg hq2] at hget
          exact hne q st hget

/-! ## Die lemmas -/

theorem roll_loop_nil (r : Rng) : roll_loop [] r = ([], r) := by
  rw [roll_loop]

theorem roll_loop_cons (a : Camel) (l : List Camel) (r : Rng) :
    roll_loop (a :: l) r =
      (((a :: l).getLast (by simp), r.ints r.iidx) ::
        (roll_loop (a :: l).dropLast { r with iidx := r.iidx + 1 }).1,
       (roll_loop (a :: l).dropLast { r with iidx := r.iidx + 1 }).2) := by
  rw [roll_loop]
  rfl

theorem roll_loop_concat (l : List Camel) (a : Camel) (r : Rng) :
    roll_loop (l ++ [a]) r =
      ((a, r.ints r.iidx) :: (roll_loop l { r with iidx := r.iidx + 1 }).1,
       (roll_loop l { r with iidx := r.iidx + 1 }).2) := by
  cases l with
  | nil =>
      rw [List.nil_append, roll_loop_cons]
      simp [roll_loop_nil]
  | cons b l2 =>
      have hdl : (b :: (l2 ++ [a])).dropLast = b :: l2 := by
        rw [show b :: (l2 ++ [a]) = (b :: l2) ++ [a] from rfl, List.dropLast_concat]
      have hgl : ∀ h, (b :: (l2 ++ [a])).getLast h = a := fun h => by simp
      rw [show (b :: l2) ++ [a] = b :: (l2 ++ [a]) from rfl, roll_loop_cons, hdl, hgl]

theorem roll_loop_char (st : List Camel) (r : Rng) :
    (roll_loop st r).1.map Prod.fst = st.reverse ∧
    (roll_loop st r).2.sidx = r.sidx ∧
    (roll_loop st r).2.shuffles = r.shuffles ∧
    (roll_loop st r).2.ints = r.ints ∧
    (roll_loop st r).2.iidx = r.iidx + st.length := by
  induction st using List.reverseRecOn generalizing r with
  | nil => simp [roll_loop_nil]
  | append_singleton l a ih =>
      rw [roll_loop_concat]
      obtain ⟨ih1, ih2, ih3, ih4, ih5⟩ := ih { r with iidx := r.iidx + 1 }
      refine ⟨?_, ih2, ih3, ih4, ?_⟩
      · simp [ih1]
      · rw [ih5]
        simp [List.length_append]
        omega

theorem roll_finish_round_eq (d : CamelDie) (r : Rng) :
    roll_finish_round d r =
      ((roll_loop d.state r).1,
       { camels := d.camels,
         state := (roll_loop d.state r).2.shuffles
           (roll_loop d.state r).2.sidx d.camels },
       { shuffles := (roll_loop d.state r).2.shuffles,
         ints := (roll_loop d.state r).2.ints,
         sidx := (roll_loop d.state r).2.sidx + 1,
         iidx := (roll_loop d.state r).2.iidx }) := rfl

theorem roll_finish_round_char (d : CamelDie) (r : Rng) :
    (roll_finish_round d r).1.map Prod.fst = d.state.reverse ∧
    (roll_finish_round d r).2.1.camels = d.camels ∧
    (roll_finish_round d r).2.1.state = r.shuffles r.sidx d.camels ∧
    (roll_finish_round d r).2.2.sidx = r.sidx + 1 := by
  obtain ⟨h1, h2, h3, h4, h5⟩ := roll_loop_char d.state r
  rw [roll_finish_round_eq]
  exact ⟨h1, rfl, by rw [h2, h3], by rw [h2]⟩

theorem listPop_nil : listPop [] = none := rfl

theorem listPop_of_ne_nil {l : List Camel} (h : l ≠ []) :
    listPop l = some (l.getLast h, l.dropLast) := by
  rw [listPop, List.getLast?_eq_getLast _ h]

theorem roll_once_empty (d : CamelDie) (r : Rng) (hst : d.state = [])
    (hsh : r.shuffles r.sidx d.camels ≠ []) :
    roll_once d r = some
      (((r.shuffles r.sidx d.camels).getLast hsh, r.ints r.iidx),
       { camels := d.camels, state := (r.shuffles r.sidx d.camels).dropLast },
       { shuffles := r.shuffles, ints := r.ints,
         sidx := r.sidx + 1, iidx := r.iidx + 1 }) := by
  have hpop : listPop d.state = none := by rw [hst]; rfl
  have hpop2 : listPop (r.shuffles r.sidx d.camels) =
      some ((r.shuffles r.sidx d.camels).getLast hsh,
        (r.shuffles r.sidx d.camels).dropLast) := listPop_of_ne_nil hsh
  simp only [roll_once, hpop, reset_state, doShuffle, randint, hpop2]

theorem pieces_disjoint_of_nodup {d : PosMap} (hnd : (piecesOf d).Nodup)
    {p1 p2 : Pos} {s1 s2 : Stack} (h1 : (p1, s1) ∈ d) (h2 : (p2, s2) ∈ d)
    (hne : p1 ≠ p2) {c : Camel} (hc1 : c ∈ s1) (hc2 : c ∈ s2) : False := by
  induction d with
  | nil => simp at h1
  | cons e rest ih =>
      rw [piecesOf_cons] at hnd
      obtain ⟨hnde, hndr, hdisj⟩ := List.nodup_append.mp hnd
      rcases List.mem_cons.mp h1 with he1 | he1
      · rcases List.mem_cons.mp h2 with he2 | he2
        · have h12 := he1.trans he2.symm
          rw [Prod.mk.injEq] at h12
          exact hne h12.1
        · refine hdisj ?_ (mem_piecesOf he2 hc2)
          rw [← he1]
          exact hc1
      · rcases List.mem_cons.mp h2 with he2 | he2
        · refine hdisj ?_ (mem_piecesOf he1 hc1)
          rw [← he2]
          exact hc2
        · exact ih hndr he1 he2

/-! ## Claims -/

/-- C1: on an invariant-satisfying board, for a piece `p` present on the
board at `cur` and any integer `steps`, a successful `move` splits the
stack at `cur` into the prefix below `p` (which stays at `cur`; the
`cur` entry disappears when that prefix is empty) and the contiguous
suffix beginning at `p`, and appends that suffix, order preserved, to
the stack at `cur + steps` when one exists, else creates a fresh entry
holding exactly the suffix.  When `cur + steps = cur` the detach and
re-attach restore the original stack at `cur`. -/
theorem claim_C1_move_detach_attach {b b' : Board} {p : Camel} {cur : Pos}
    {steps : Int} (hInv : Inv b) (hcur : b.index p = some cur)
    (hmove : move_camel b p steps = .ok b') :
    ∃ kept moved,
      dget b.track cur = some (kept ++ moved) ∧
      p ∉ kept ∧ moved.head? = some p ∧
      (cur + steps = cur → dget b'.track cur = some (kept ++ moved)) ∧
      (cur + steps ≠ cur →
        dget b'.track cur = (if kept = [] then none else some kept) ∧
        dget b'.track (cur + steps) =
          some ((dget b.track (cur + steps)).getD [] ++ moved)) := by
  obtain ⟨cur2, kept, moved, hcur2, hstk, hnk, hhd, htr, hidx, _, _⟩ :=
    move_spec hInv hmove
  have hcc : cur = cur2 := by
    have h12 := hcur.symm.trans hcur2
    injection h12
  subst hcc
  refine ⟨kept, moved, hstk, hnk, hhd, ?_, ?_⟩
  · intro hz
    rw [htr cur, if_pos hz.symm, if_pos hz]
    by_cases hk : kept = []
    · rw [if_pos hk, hk]
      rfl
    · rw [if_neg hk]
      rfl
  · intro hz
    constructor
    · rw [htr cur, if_neg (fun hh => hz hh.symm), if_pos rfl]
    · rw [htr (cur + steps), if_pos rfl, if_neg hz]

/-- C1 witness: on the board `{1: [a, b], 2: [c]}`, moving `a` by 1
carries `[a, b]` onto `[c]` at position 2. -/
theorem claim_C1_witness :
    ∃ b b', mkBoard [((1 : Pos), (["a", "b"] : Stack)), (2, ["c"])] = some b ∧
      move_camel b "a" 1 = .ok b' ∧
      ∃ kept moved,
        dget b.track 1 = some (kept ++ moved) ∧
        "a" ∉ kept ∧ moved.head? = some "a" ∧
        ((1 : Pos) + 1 = 1 → dget b'.track 1 = some (kept ++ moved)) ∧
        ((1 : Pos) + 1 ≠ 1 →
          dget b'.track 1 = (if kept = [] then none else some kept) ∧
          dget b'.track (1 + 1) =
            some ((dget b.track (1 + 1)).getD [] ++ moved)) := by
  have hmk : mkBoard [((1 : Pos), (["a", "b"] : Stack)), (2, ["c"])]
      = some (Board.mk [(1, ["a", "b"]), (2, ["c"])]
          (updIdx (updIdx (updIdx (fun _ => none) "a" 1) "b" 1) "c" 2)) := rfl
  have hInv := (mkBoard_inv (by decide :
    (keys [((1 : Pos), (["a", "b"] : Stack)), (2, ["c"])]).Nodup) hmk).1
  have hin : (Board.mk [((1 : Pos), (["a", "b"] : Stack)), (2, ["c"])]
      (updIdx (updIdx (updIdx (fun _ => none) "a" 1) "b" 1) "c" 2)).index "a"
      = some 1 := rfl
  obtain ⟨b', hmv⟩ := move_total hInv hin 1
  exact ⟨_, b', hmk, hmv, claim_C1_move_detach_attach hInv hin hmv⟩

/-- C2: index consistency is an invariant of the board state machine:
for every reachable board (construction plus any sequence of successful
moves), `index[p] = pos` iff `p` is a member of the stack at `pos`. -/
theorem claim_C2_index_consistency {b : Board} (h : Reachable b) :
    ∀ p pos, b.index p = some pos ↔ ∃ s, dget b.track pos = some s ∧ p ∈ s :=
  (reachable_inv h).2.2

/-- C2 witness: the freshly constructed board `{1: [a]}` is reachable
and indexes `a` at 1 consistently. -/
theorem claim_C2_witness :
    ∃ b, mkBoard [((1 : Pos), (["a"] : Stack))] = some b ∧
      (b.index "a" = some 1 ↔ ∃ s, dget b.track 1 = some s ∧ "a" ∈ s) := by
  have hmk : mkBoard [((1 : Pos), (["a"] : Stack))]
      = some (Board.mk [(1, ["a"])] (updIdx (fun _ => none) "a" 1)) := rfl
  exact ⟨_, hmk, claim_C2_index_consistency
    (Reachable.init _ _ (by decide : (keys [((1 : Pos), (["a"] : Stack))]).Nodup) hmk)
    "a" 1⟩

/-- C3: global uniqueness is an invariant: on every reachable board the
stored camels form a duplicate-free list (each piece occurs in exactly
one stack at exactly one position), and every further successful move
permutes the stored camels (none duplicated, none lost). -/
theorem claim_C3_global_uniqueness {b : Board} (h : Reachable b) :
    (piecesOf b.track).Nodup ∧
    ∀ c s b', move_camel b c s = .ok b' →
      (piecesOf b'.track).Perm (piecesOf b.track) := by
  have hInv := reachable_inv h
  refine ⟨hInv.2.1, ?_⟩
  intro c s b' hm
  obtain ⟨_, _, _, _, _, _, _, _, _, _, hperm⟩ := move_spec hInv hm
  exact hperm

/-- C3 witness: the board `{2: [x, y]}` is reachable with
duplicate-free camels, and any successful move permutes them. -/
theorem claim_C3_witness :
    ∃ b, mkBoard [((2 : Pos), (["x", "y"] : Stack))] = some b ∧
      ((piecesOf b.track).Nodup ∧
        ∀ c s b', move_camel b c s = .ok b' →
          (piecesOf b'.track).Perm (piecesOf b.track)) := by
  have hmk : mkBoard [((2 : Pos), (["x", "y"] : Stack))]
      = some (Board.mk [(2, ["x", "y"])]
          (updIdx (updIdx (fun _ => none) "x" 2) "y" 2)) := rfl
  exact ⟨_, hmk, claim_C3_global_uniqueness
    (Reachable.init _ _ (by decide : (keys [((2 : Pos), (["x", "y"] : Stack))]).Nodup) hmk)⟩

/-- C4 counterexample: `State.from_dict` does not filter empty stacks
and `Board.__init__` does not reject them, so constructing a board from
the literal dict `{1: []}` succeeds and yields a board whose position 1
maps to an empty stack — refuting the claim that every board obtained
from construction, including one produced via `State.from_dict`, has
only non-empty stacks. -/
theorem claim_C4_counterexample :
    ∃ b, mkBoard (from_dict [((1 : Pos), ([] : List Camel))]) = some b ∧
      dget b.track 1 = some [] :=
  ⟨Board.mk [(1, [])] (fun _ => none), rfl, rfl⟩

/-- C4 amended: the non-empty-stack invariant does hold for every board
constructed from an initial state with no empty stacks and evolved by
successful moves; `from_dict` states with an empty list violate it at
construction. -/
theorem claim_C4_nonempty_amended {b : Board} (h : ReachableNE b) :
    ∀ pos s, dget b.track pos = some s → s ≠ [] :=
  (reachableNE_inv h).2

/-- C4 witness: the board built from `{1: [a]}` (no empty stacks) has
only non-empty stacks. -/
theorem claim_C4_witness :
    ∃ b, mkBoard [((1 : Pos), (["a"] : Stack))] = some b ∧
      ∀ pos s, dget b.track pos = some s → s ≠ [] := by
  have hmk : mkBoard [((1 : Pos), (["a"] : Stack))]
      = some (Board.mk [(1, ["a"])] (updIdx (fun _ => none) "a" 1)) := rfl
  exact ⟨_, hmk, claim_C4_nonempty_amended
    (ReachableNE.init _ _ (by decide : (keys [((1 : Pos), (["a"] : Stack))]).Nodup)
      (by simp) hmk)⟩

/-- C5 counterexample: `roll_finish_round` only drains the current
pool, so on a die over universe `{a, b}` whose pool holds only `a`
(a legal `CamelDie` construction, and the state after a `roll_once`)
the returned pairs name only `a`: the returned list does not contain
each piece of the full universe, refuting the claim for arbitrary
randomizer states.  The random source used is admissible (its shuffles
are permutations and its integer draws lie in `[1, 3]`). -/
theorem claim_C5_counterexample :
    ((roll_finish_round { camels := ["a", "b"], state := ["a"] } idRng).1.map
      Prod.fst = ["a"]) ∧
    "b" ∈ ({ camels := ["a", "b"], state := ["a"] } : CamelDie).camels ∧
    "b" ∉ ((roll_finish_round { camels := ["a", "b"], state := ["a"] } idRng).1.map
      Prod.fst) ∧
    (∀ n l, (idRng.shuffles n l).Perm l) ∧
    (∀ n, 1 ≤ idRng.ints n ∧ idRng.ints n ≤ 3) := by
  have h1 : (roll_finish_round { camels := ["a", "b"], state := ["a"] } idRng).1.map
      Prod.fst = ["a"] :=
    (roll_finish_round_char { camels := ["a", "b"], state := ["a"] } idRng).1
  refine ⟨h1, by decide, ?_, fun n l => List.Perm.refl l,
    fun n => ⟨le_refl 1, (by norm_num : (1 : Int) ≤ 3)⟩⟩
  rw [h1]
  decide

/-- C5 amended: `roll_round` returns exactly the current pool in pop
order (so each universe piece exactly once when the pool is a full
duplicate-free permutation of the universe, as after construction or a
reshuffle), consumes no shuffle draw while popping, and performs the
single reshuffle only after the pool is exhausted. -/
theorem claim_C5_round_amended (d : CamelDie) (r : Rng) :
    (roll_finish_round d r).1.map Prod.fst = d.state.reverse ∧
    (roll_finish_round d r).2.1.state = r.shuffles r.sidx d.camels ∧
    (roll_finish_round d r).2.2.sidx = r.sidx + 1 ∧
    (d.state.Perm d.camels →
      ((roll_finish_round d r).1.map Prod.fst).Perm d.camels ∧
      (d.camels.Nodup → ((roll_finish_round d r).1.map Prod.fst).Nodup)) := by
  obtain ⟨h1, h2, h3, h4⟩ := roll_finish_round_char d r
  refine ⟨h1, h3, h4, ?_⟩
  intro hperm
  have hp : ((roll_finish_round d r).1.map Prod.fst).Perm d.camels := by
    rw [h1]
    exact d.state.reverse_perm.trans hperm
  exact ⟨hp, fun hnd => hp.symm.nodup hnd⟩

/-- C5 witness: with a full pool over `{a, b}` the round returns each
piece exactly once. -/
theorem claim_C5_witness :
    ((roll_finish_round { camels := ["a", "b"], state := ["b", "a"] } idRng).1.map
      Prod.fst).Perm ["a", "b"] ∧
    ((roll_finish_round { camels := ["a", "b"], state := ["b", "a"] } idRng).1.map
      Prod.fst).Nodup := by
  have h := (claim_C5_round_amended { camels := ["a", "b"], state := ["b", "a"] }
    idRng).2.2.2 (List.Perm.swap "a" "b" [])
  exact ⟨h.1, h.2 (by decide)⟩

/-- C6 counterexample: a die constructed from the empty piece set has
an empty pool; `roll_once` reshuffles to an empty pool and the retried
pop raises an uncaught `IndexError` (modelled as `none`), refuting
"never raises" for arbitrary piece sets. -/
theorem claim_C6_counterexample :
    roll_once { camels := [], state := [] } idRng = none := rfl

/-- C6 amended: for a randomizer over a nonempty piece universe whose
pool is empty, `roll_once` first reshuffles the pool to a permutation
of the full piece set, then pops its last element, returning a pair
whose step count lies in `[1, 3]`; it never errors. -/
theorem claim_C6_roll_once_amended (d : CamelDie) (r : Rng)
    (hst : d.state = []) (hcam : d.camels ≠ [])
    (hshuf : ∀ n l, (r.shuffles n l).Perm l)
    (hint : ∀ n, 1 ≤ r.ints n ∧ r.ints n ≤ 3) :
    ∃ piece steps d' r',
      roll_once d r = some ((piece, steps), d', r') ∧
      1 ≤ steps ∧ steps ≤ 3 ∧
      (r.shuffles r.sidx d.camels).Perm d.camels ∧
      (r.shuffles r.sidx d.camels).getLast? = some piece ∧
      d'.state = (r.shuffles r.sidx d.camels).dropLast ∧
      d'.camels = d.camels ∧
      r'.sidx = r.sidx + 1 := by
  have hperm := hshuf r.sidx d.camels
  have hne : r.shuffles r.sidx d.camels ≠ [] := by
    intro h0
    exact hcam ((h0 ▸ hperm).symm.eq_nil)
  rw [roll_once_empty d r hst hne]
  exact ⟨_, _, _, _, rfl, (hint r.iidx).1, (hint r.iidx).2, hperm,
    List.getLast?_eq_getLast _ hne, rfl, rfl, rfl⟩

/-- C6 witness: a die over `{a}` with an exhausted pool reshuffles and
returns `a` with a step count in range. -/
theorem claim_C6_witness :
    ∃ piece steps d' r',
      roll_once { camels := ["a"], state := [] } idRng
        = some ((piece, steps), d', r') ∧
      1 ≤ steps ∧ steps ≤ 3 ∧
      (["a"] : List Camel).Perm ["a"] ∧
      (["a"] : List Camel).getLast? = some piece ∧
      d'.state = (["a"] : List Camel).dropLast ∧
      d'.camels = ["a"] ∧
      r'.sidx = idRng.sidx + 1 :=
  claim_C6_roll_once_amended { camels := ["a"], state := [] } idRng rfl
    (by decide) (fun n l => List.Perm.refl l) (fun n => ⟨le_refl 1, (by norm_num : (1 : Int) ≤ 3)⟩)

/-- C7: on an invariant-satisfying board, `move` fails exactly when the
piece is absent from the index, the error is always the index lookup's
`UnknownPieceError`, and when the piece is indexed the move succeeds.
In the embedding a failing `move` is a pure `.error` result carrying no
state, reflecting that the Python lookup occurs before any mutation, so
a raising `move` leaves the Track State and index untouched. -/
theorem claim_C7_unknown_piece {b : Board} (camel : Camel) (steps : Int)
    (hInv : Inv b) :
    (move_camel b camel steps = .error MoveErr.UnknownPieceError
      ↔ b.index camel = none) ∧
    (∀ e, move_camel b camel steps = .error e → e = MoveErr.UnknownPieceError) ∧
    (b.index camel ≠ none → ∃ b', move_camel b camel steps = .ok b') := by
  obtain ⟨h1, h2⟩ := move_error_char camel steps hInv
  refine ⟨h1, h2, ?_⟩
  intro hne
  cases hcur : b.index camel with
  | none => exact absurd hcur hne
  | some cur => exact move_total hInv hcur steps

/-- C7 witness: the empty board does not index `a`, and moving `a`
fails with `UnknownPieceError`. -/
theorem claim_C7_witness :
    (move_camel (Board.mk [] (fun _ => none)) "a" 1
      = .error MoveErr.UnknownPieceError
      ↔ (Board.mk [] (fun _ => none)).index "a" = none) ∧
    (∀ e, move_camel (Board.mk [] (fun _ => none)) "a" 1 = .error e →
      e = MoveErr.UnknownPieceError) ∧
    ((Board.mk [] (fun _ => none)).index "a" ≠ none →
      ∃ b', move_camel (Board.mk [] (fun _ => none)) "a" 1 = .ok b') :=
  claim_C7_unknown_piece "a" 1
    ⟨by simp [NodupKeys, keys], by simp [piecesOf], fun p pos => by simp [dget]⟩

/-- C8: moving a present piece by 0 steps succeeds and leaves the board
observably unchanged — every position maps to the same stack (the
detached suffix reattaches at the same key, re-forming the original
stack) and every index entry is unchanged. -/
theorem claim_C8_move_zero {b : Board} {p : Camel} {cur : Pos}
    (hInv : Inv b) (hcur : b.index p = some cur) :
    ∃ b', move_camel b p 0 = .ok b' ∧
      (∀ q, dget b'.track q = dget b.track q) ∧
      (∀ c, b'.index c = b.index c) := by
  obtain ⟨b', hok⟩ := move_total hInv hcur 0
  obtain ⟨cur2, kept, moved, hcur2, hstk, hnk, hhd, htr, hidx, _, _⟩ :=
    move_spec hInv hok
  have hcc : cur = cur2 := by
    have h12 := hcur.symm.trans hcur2
    injection h12
  subst hcc
  have hz : cur + (0 : Int) = cur := add_zero cur
  refine ⟨b', hok, ?_, ?_⟩
  · intro q
    rw [htr q]
    by_cases hq : q = cur
    · have hq0 : q = cur + 0 := by rw [hz, hq]
      rw [if_pos hq0, if_pos hz, hq, hstk]
      by_cases hk : kept = []
      · rw [if_pos hk, hk]
        rfl
      · rw [if_neg hk]
        rfl
    · have hq0 : ¬q = cur + 0 := by rw [hz]; exact hq
      rw [if_neg hq0, if_neg hq]
  · intro c
    rw [hidx c]
    by_cases hc : c ∈ moved
    · rw [if_pos hc, hz]
      exact ((hInv.2.2 c cur).mpr
        ⟨kept ++ moved, hstk, List.mem_append.mpr (Or.inr hc)⟩).symm
    · rw [if_neg hc]

/-- C8 witness: on `{3: [a, b]}`, `move(a, 0)` re-forms the stack and
changes nothing observable. -/
theorem claim_C8_witness :
    ∃ b, mkBoard [((3 : Pos), (["a", "b"] : Stack))] = some b ∧
      ∃ b', move_camel b "a" 0 = .ok b' ∧
        (∀ q, dget b'.track q = dget b.track q) ∧
        (∀ c, b'.index c = b.index c) := by
  have hmk : mkBoard [((3 : Pos), (["a", "b"] : Stack))]
      = some (Board.mk [(3, ["a", "b"])]
          (updIdx (updIdx (fun _ => none) "a" 3) "b" 3)) := rfl
  have hin : (Board.mk [((3 : Pos), (["a", "b"] : Stack))]
      (updIdx (updIdx (fun _ => none) "a" 3) "b" 3)).index "a" = some 3 := rfl
  exact ⟨_, hmk, claim_C8_move_zero
    (mkBoard_inv (by decide : (keys [((3 : Pos), (["a", "b"] : Stack))]).Nodup) hmk).1
    hin⟩

/-- C9: constructing a board from a supplied state in which the same
piece appears in two stacks at two different positions fails with the
construction-time duplicate check (the spec's `DuplicatePieceError`,
the source's `assert`), and construction from a duplicate-free state
succeeds. -/
theorem claim_C9_duplicate_detection :
    (∀ d : PosMap, NodupKeys d →
      (∃ p1 p2 s1 s2 c, p1 ≠ p2 ∧ (p1, s1) ∈ d ∧ (p2, s2) ∈ d ∧
        c ∈ s1 ∧ c ∈ s2) →
      mkBoard d = none) ∧
    (∀ d : PosMap, (piecesOf d).Nodup → ∃ b, mkBoard d = some b) := by
  constructor
  · intro d _hk hdup
    obtain ⟨p1, p2, s1, s2, c, hne, hm1, hm2, hc1, hc2⟩ := hdup
    cases hmk : mkBoard d with
    | none => rfl
    | some b =>
        exfalso
        obtain ⟨_, hnd, _⟩ := mkBoard_char hmk
        exact pieces_disjoint_of_nodup hnd hm1 hm2 hne hc1 hc2
  · intro d hnd
    exact mkBoard_total hnd

/-- C9 witness: `{1: [x], 2: [x]}` is rejected, `{1: [x], 2: [y]}` is
accepted. -/
theorem claim_C9_witness :
    mkBoard [((1 : Pos), (["x"] : Stack)), (2, ["x"])] = none ∧
    ∃ b, mkBoard [((1 : Pos), (["x"] : Stack)), (2, ["y"])] = some b := by
  constructor
  · exact claim_C9_duplicate_detection.1 _
      (by decide : (keys [((1 : Pos), (["x"] : Stack)), (2, ["x"])]).Nodup)
      ⟨1, 2, ["x"], ["x"], "x", by decide, by decide, by decide, by decide,
        by decide⟩
  · exact claim_C9_duplicate_detection.2 _
      (by decide : (piecesOf [((1 : Pos), (["x"] : Stack)), (2, ["y"])]).Nodup)

/-- C10: frame property of `move` — a successful move of piece `p` from
`cur` leaves the stack at every position other than `cur` and
`cur + steps` exactly as it was, and leaves the index entry of every
piece outside the detached suffix unchanged. -/
theorem claim_C10_frame {b b' : Board} {p : Camel} {cur : Pos} {steps : Int}
    (hInv : Inv b) (hcur : b.index p = some cur)
    (hmove : move_camel b p steps = .ok b') :
    ∃ kept moved,
      dget b.track cur = some (kept ++ moved) ∧
      p ∉ kept ∧ moved.head? = some p ∧
      (∀ q, q ≠ cur → q ≠ cur + steps → dget b'.track q = dget b.track q) ∧
      (∀ c, c ∉ moved → b'.index c = b.index c) := by
  obtain ⟨cur2, kept, moved, hcur2, hstk, hnk, hhd, htr, hidx, _, _⟩ :=
    move_spec hInv hmove
  have hcc : cur = cur2 := by
    have h12 := hcur.symm.trans hcur2
    injection h12
  subst hcc
  refine ⟨kept, moved, hstk, hnk, hhd, ?_, ?_⟩
  · intro q hq1 hq2
    rw [htr q, if_neg hq2, if_neg hq1]
  · intro c hc
    rw [hidx c, if_neg hc]

/-- C10 witness: on `{1: [a], 2: [b], 5: [c]}`, moving `a` by 1 leaves
position 5 and the index entries of `b` and `c` untouched. -/
theorem claim_C10_witness :
    ∃ b b', mkBoard [((1 : Pos), (["a"] : Stack)), (2, ["b"]), (5, ["c"])]
        = some b ∧
      move_camel b "a" 1 = .ok b' ∧
      ∃ kept moved,
        dget b.track 1 = some (kept ++ moved) ∧
        "a" ∉ kept ∧ moved.head? = some "a" ∧
        (∀ q, q ≠ 1 → q ≠ 1 + 1 → dget b'.track q = dget b.track q) ∧
        (∀ c, c ∉ moved → b'.index c = b.index c) := by
  have hmk : mkBoard [((1 : Pos), (["a"] : Stack)), (2, ["b"]), (5, ["c"])]
      = some (Board.mk [(1, ["a"]), (2, ["b"]), (5, ["c"])]
          (updIdx (updIdx (updIdx (fun _ => none) "a" 1) "b" 2) "c" 5)) := rfl
  have hInv := (mkBoard_inv (by decide :
    (keys [((1 : Pos), (["a"] : Stack)), (2, ["b"]), (5, ["c"])]).Nodup) hmk).1
  have hin : (Board.mk [((1 : Pos), (["a"] : Stack)), (2, ["b"]), (5, ["c"])]
      (updIdx (updIdx (updIdx (fun _ => none) "a" 1) "b" 2) "c" 5)).index "a"
      = some 1 := rfl
  obtain ⟨b', hmv⟩ := move_total hInv hin 1
  exact ⟨_, b', hmk, hmv, claim_C10_frame hInv hin hmv⟩

end Camels
